import Mathlib

/-!
Shallow embedding of the SentinelNav binary-analysis engine.

The repository ships two parallel implementations of the same pipeline: the
monolithic src/sentinelnav.py and the refactored package src/sentinel/.
Where the two agree (scanners, statistics kernel, worker, detector, store
paging) a single Lean definition models both; where they diverge (the /load
store-reset behaviour and the fingerprint rule order) both variants are
embedded under distinct names.

Modelling conventions:
- a byte is `Fin 256`; a file or buffer is a `List Byte` (file I/O is
  collapsed to the byte list the scanner reads);
- Python float arithmetic is modelled by exact arithmetic over `ℝ` (for
  quantities involving `math.log2`) and `ℚ` (for the rational band
  fractions); the decimal `round(x, n)` builtin is modelled by half-to-even
  rounding of the exact value at n decimal digits;
- generators are modelled as the list of pairs they yield.
-/

set_option maxHeartbeats 1000000
set_option maxRecDepth 8192
set_option linter.unusedVariables false

namespace SNav

abbrev Byte := Fin 256

/-! ## Statistics kernel: FastMath.entropy (sentinelnav.py 158-168, sentinel/core.py 6-16) -/

/-- Shannon entropy in bits.  The source returns 0 on empty input and
otherwise accumulates `ent -= p * math.log2(p)` over the counts of the bytes
that occur in `data` (`Counter` only holds bytes with positive count).  Here
the sum ranges over all 256 byte values: a byte with count 0 contributes
`Real.negMulLog 0 = 0`, exactly matching the skipped bins, and
`-p * log2 p = Real.negMulLog p / Real.log 2`. -/
noncomputable def entropy (data : List Byte) : ℝ :=
  if data = [] then 0
  else (∑ b : Byte, Real.negMulLog ((data.count b : ℝ) / (data.length : ℝ))) / Real.log 2

/-! ## Byte-class band counts (worker `_worker_scan`, sentinelnav.py 200-219,
sentinel/processor.py 7-17).  The source iterates over `Counter(data).items()`
adding each count to the band its byte falls in; that is the same as counting
the elements of `data` that satisfy the band predicate.  The three bands are
mutually exclusive, so the if/elif chain of the monolith and the three
independent sums of the package agree. -/

def rCount (data : List Byte) : Nat := data.countP (fun b => decide (0x80 ≤ b.val))

def gCount (data : List Byte) : Nat :=
  data.countP (fun b => decide (0x20 ≤ b.val ∧ b.val ≤ 0x7E))

def bCount (data : List Byte) : Nat := data.countP (fun b => decide (b.val ≤ 0x1F))

/-- Count of bytes equal to 0x7F, the one value outside all three bands.
Used only to state the spec sentence about `1 - count_of_0x7F / length`. -/
def count7F (data : List Byte) : Nat := data.countP (fun b => decide (b.val = 0x7F))

/-! ## Decimal rounding.  Python `round(x, n)` rounds to n decimal digits,
ties to even. -/

/-- Round a rational to the nearest integer, ties to the even integer. -/
def roundHalfEven (q : ℚ) : ℤ :=
  if q - ⌊q⌋ = (1 : ℚ) / 2 then (if Even ⌊q⌋ then ⌊q⌋ else ⌊q⌋ + 1) else round q

/-- Python `round(q, 3)` on an exact rational value. -/
def round3 (q : ℚ) : ℚ := (roundHalfEven (q * 1000) : ℚ) / 1000

/-- Round a real to the nearest integer, ties to the even integer. -/
noncomputable def roundHalfEvenR (x : ℝ) : ℤ :=
  if x - ⌊x⌋ = (1 : ℝ) / 2 then (if Even ⌊x⌋ then ⌊x⌋ else ⌊x⌋ + 1) else round x

/-- Python `round(x, 3)` on a real value. -/
noncomputable def round3R (x : ℝ) : ℝ := (roundHalfEvenR (x * 1000) : ℝ) / 1000

/-- Python `round(x, 2)` on a real value. -/
noncomputable def round2R (x : ℝ) : ℝ := (roundHalfEvenR (x * 100) : ℝ) / 100

/-! ## Worker record -/

/-- Result tuple of `_worker_scan` (sentinelnav.py 200-219): offset, length,
rounded entropy, rounded band fractions. -/
structure WorkerRec where
  offset : Nat
  length : Nat
  ent : ℝ
  r : ℚ
  g : ℚ
  b : ℚ
deriving Inhabited

/-- Embedding of `_worker_scan` (sentinelnav.py 200-219, sentinel/processor.py
7-17): the empty-data branch returns the all-zero record, otherwise entropy
and the three band fractions are computed and rounded to three decimals. -/
noncomputable def workerScan (p : Nat × List Byte) : WorkerRec :=
  if p.2 = [] then ⟨p.1, 0, 0, 0, 0, 0⟩
  else
    ⟨p.1, p.2.length, round3R (entropy p.2),
      round3 ((rCount p.2 : ℚ) / (p.2.length : ℚ)),
      round3 ((gCount p.2 : ℚ) / (p.2.length : ℚ)),
      round3 ((bCount p.2 : ℚ) / (p.2.length : ℚ))⟩

/-! ## Scanners (sentinelnav.py 221-261, sentinel/scanners.py) -/

/-- Embedding of `FixedScanner.yield_raw_chunks` (sentinelnav.py 224-234):
repeatedly read `bs` bytes and yield `(offset, block)` until a read returns
nothing.  With `bs = 0` the very first `f.read(0)` returns the empty bytes
object and the loop breaks at once, yielding no chunks, which the `bs = 0`
guard reproduces. -/
def fixedChunks (bs : Nat) (offset : Nat) (data : List Byte) :
    List (Nat × List Byte) :=
  if h : bs = 0 ∨ data = [] then []
  else
    (offset, data.take bs) ::
      fixedChunks bs (offset + (data.take bs).length) (data.drop bs)
termination_by data.length
decreasing_by
  push_neg at h
  have h1 : bs ≠ 0 := h.1
  have h2 : data.length ≠ 0 := fun hl => h.2 (List.eq_nil_of_length_eq_zero hl)
  simp only [List.length_drop]
  omega

/-- Cut length chosen by one round of the `SentinelScanner` inner loop when
the whole remaining input `r` is visible: `buffer.find` locates the first
delimiter occurrence (`List.indexOf` returns `r.length` when absent);
if found the cut is `idx + 1` capped at `max_size`, otherwise the cut is
`max_size` when enough input remains and the whole remainder at EOF. -/
def sentinelCut (d : Byte) (M : Nat) (r : List Byte) : Nat :=
  if r.indexOf d < r.length then min (r.indexOf d + 1) M else min r.length M

/-- Fuel-indexed unfolding of the `SentinelScanner.yield_raw_chunks` loop
(sentinelnav.py 236-261, sentinel/scanners.py 16-36) over the remaining
input.  The source reads the file in 64 KiB slabs into a rolling buffer, but
the slab size never changes which chunks are emitted: the buffer is always a
prefix of the remaining input, a delimiter found in the buffer is the first
one in the remaining input, a buffer of length at least `max_size` with no
delimiter yields a `max_size` cut (and the first delimiter, if any, lies at
index at least `max_size`, so `min (idx+1) max_size = max_size` as well),
at EOF the buffer is the whole remainder, and in every other situation the
source emits nothing and reads more.  So every emitted cut equals
`sentinelCut` of the remaining input.  One unit of fuel is spent per emitted
chunk; `data.length` fuel is enough whenever `1 ≤ max_size` because every
cut then consumes at least one byte.  (With `max_size = 0` the source loops
forever emitting empty chunks; the fuel cap truncates that divergent run.) -/
def sentinelGo (d : Byte) (M : Nat) : Nat → Nat → List Byte → List (Nat × List Byte)
  | 0, _, _ => []
  | _ + 1, _, [] => []
  | fuel + 1, off, x :: rest =>
    (off, (x :: rest).take (sentinelCut d M (x :: rest))) ::
      sentinelGo d M fuel (off + sentinelCut d M (x :: rest))
        ((x :: rest).drop (sentinelCut d M (x :: rest)))

/-- Chunk sequence of `SentinelScanner.yield_raw_chunks` on a whole file. -/
def sentinelChunks (d : Byte) (M : Nat) (data : List Byte) : List (Nat × List Byte) :=
  sentinelGo d M data.length 0 data

/-- Contiguity of a chunk list: offsets start at `o` and each chunk starts
where the previous one ends. -/
def Contig : Nat → List (Nat × List Byte) → Prop
  | _, [] => True
  | o, c :: rest => c.1 = o ∧ Contig (o + c.2.length) rest

/-! ## Anomaly detector and processor (Processor.run, sentinelnav.py 263-313,
sentinel/processor.py 19-60) -/

/-- Full per-chunk record as inserted into the store: worker fields plus
anomaly score and flux type. -/
structure Row where
  offset : Nat
  length : Nat
  ent : ℝ
  r : ℚ
  g : ℚ
  b : ℚ
  anom : ℝ
  flux : Nat
deriving Inhabited

/-- Flux classification of one record (sentinelnav.py 289-298): first match
wins among spike (`delta > 1.5 and ent > 6.0`), drop
(`delta < -1.5 and ent < 3.0`) and sustained high density (`ent > 7.95`).
The float literals 1.5, 3.0, 6.0 and 7.95 are exact rationals. -/
noncomputable def fluxOf (delta ent : ℝ) : Nat :=
  if 3 / 2 < delta ∧ 6 < ent then 1
  else if delta < -(3 / 2) ∧ ent < 3 then 2
  else if 159 / 20 < ent then 3
  else 0

/-- Flux bonus added to the anomaly score in the branch that fired
(0.8, 0.8, 0.5, 0). -/
noncomputable def fluxBonus (delta ent : ℝ) : ℝ :=
  if 3 / 2 < delta ∧ 6 < ent then 4 / 5
  else if delta < -(3 / 2) ∧ ent < 3 then 4 / 5
  else if 159 / 20 < ent then 1 / 2
  else 0

/-- Serial anomaly-detection loop over the ordered worker records
(sentinelnav.py 282-304).  State: `hist`, the FIFO of recent entropies, and
`prev`, the previous entropy (initially 0.0).  For each record: the base
score is `min(1.0, |ent - mean hist| / 2.0)` once `hist` holds at least
`w` entries, the flux branch adds its bonus, then `prev := ent`, `ent` is
appended to `hist`, and the oldest entry is dropped once the length exceeds
`2 * w`. -/
noncomputable def detectRun (w : Nat) :
    List ℝ → ℝ → List WorkerRec → List Row
  | _, _, [] => []
  | hist, prev, rec :: rest =>
    let base : ℝ :=
      if w ≤ hist.length then min 1 (|rec.ent - hist.sum / (hist.length : ℝ)| / 2)
      else 0
    let delta := rec.ent - prev
    let hist1 := hist ++ [rec.ent]
    let hist2 := if 2 * w < hist1.length then hist1.drop 1 else hist1
    ⟨rec.offset, rec.length, rec.ent, rec.r, rec.g, rec.b,
        base + fluxBonus delta rec.ent, fluxOf delta rec.ent⟩ ::
      detectRun w hist2 rec.ent rest

/-- Record stream of one scan: the chunker output is mapped through the
worker (the process pool `executor.map` preserves input order) and the
ordered results are folded through the anomaly detector. -/
noncomputable def scanRecords (w : Nat) (chunks : List (Nat × List Byte)) : List Row :=
  detectRun w [] 0 (chunks.map workerScan)

/-! ## Record store (DataEngine, sentinelnav.py 95-154, sentinel/database.py).
The sqlite table `chunks` with its AUTOINCREMENT primary key is modelled as
the dense list of rows in insertion order; the row at list index `i` has id
`i + 1`.  A full-table SELECT returns rows in rowid order, so
`LIMIT page_size OFFSET page_num * page_size` is drop-then-take. -/

structure DataEngine where
  rows : List Row

/-- Embedding of `DataEngine.insert_bulk`: append the batch. -/
def DataEngine.insert_bulk (e : DataEngine) (batch : List Row) : DataEngine :=
  ⟨e.rows ++ batch⟩

/-- Embedding of `DataEngine.get_total_count` (SELECT COUNT). -/
def DataEngine.get_total_count (e : DataEngine) : Nat := e.rows.length

/-- Embedding of `DataEngine.get_page` (sentinelnav.py 128-140): select
`page_size` rows starting at offset `page_num * page_size`, and return the
chunk projections and the `(round(anom_score, 2), flux_type)` projections. -/
noncomputable def DataEngine.get_page (e : DataEngine) (pageNum pageSize : Nat) :
    List (Nat × Nat × ℝ × ℚ × ℚ × ℚ) × List (ℝ × Nat) :=
  let sel := (e.rows.drop (pageNum * pageSize)).take pageSize
  (sel.map (fun r => (r.offset, r.length, r.ent, r.r, r.g, r.b)),
    sel.map (fun r => (round2R r.anom, r.flux)))

/-- Embedding of the monolith `Processor.run` (sentinelnav.py 263-313): it
closes the previous engine, creates a fresh one, and inserts every produced
record into it (the 2000-record batches concatenate, in order, to the full
record stream).  The result is the new engine. -/
noncomputable def processorRunMono (w : Nat) (chunks : List (Nat × List Byte)) :
    DataEngine :=
  DataEngine.insert_bulk ⟨[]⟩ (scanRecords w chunks)

/-- Embedding of the package `Processor.run` (sentinel/processor.py 19-60):
it receives the existing engine from the caller and only inserts into it,
never clearing it, so the records of the new scan are appended after
whatever the engine already holds. -/
noncomputable def processorRunPkg (e : DataEngine) (w : Nat)
    (chunks : List (Nat × List Byte)) : DataEngine :=
  e.insert_bulk (scanRecords w chunks)

/-! ## Session state and the /load handler (sentinelnav.py 437-464) -/

/-- Process-wide session state read by the HTTP handlers: the target file
path and the store handle (SERVER_FILE_PATH and ENGINE in the monolith,
ServerContext in the package). -/
structure Session where
  filePath : String
  engine : DataEngine

/-- Embedding of the `/load` branch of `ByteServer.do_POST` (sentinelnav.py
437-464).  `pathOk` is the outcome of the
`os.path.exists(new_path) and os.path.isfile(new_path)` validation;
`scanResult` is `some e` when `Processor.run` returns engine `e` and `none`
when it raises.  The handler assigns `SERVER_FILE_PATH = new_path` before
running the scan; on scan failure it answers 500 and performs no rollback.
The returned number is the HTTP status sent (303, 400 or 500). -/
def doPostLoad (st : Session) (newPath : String) (pathOk : Bool)
    (scanResult : Option DataEngine) : Session × Nat :=
  if pathOk then
    let st1 : Session := { st with filePath := newPath }
    match scanResult with
    | some e => ({ st1 with engine := e }, 303)
    | none => (st1, 500)
  else (st, 400)

/-! ## Architecture fingerprinter (ArchID.identify).  Both variants are
embedded: `identify` follows sentinelnav.py 23-86, `identifyPkg` follows
sentinel/core.py 18-53.  They differ in the magic-prefix list, in the order
of the entropy checks relative to the printable-ratio check, in the presence
of the Low Entropy branch, and in the low-score fallback labels. -/

/-- Count of printable bytes: `32 <= b <= 126 or b in [9, 10, 13]`. -/
def printableCount (data : List Byte) : Nat :=
  data.countP
    (fun b => decide ((0x20 ≤ b.val ∧ b.val ≤ 0x7E) ∨ b.val = 9 ∨ b.val = 10 ∨ b.val = 13))

/-- Count of null bytes at indices 3, 7, 11, ... below `data.length`
(Python `range(3, length, 4)`), used by the ARM64 heuristic. -/
def nullsAligned (data : List Byte) : Nat :=
  ((List.range data.length).filter (fun i => decide (i % 4 = 3))).countP
    (fun i => decide (data.getD i 1 = 0))

/-- Byte frequency `counts.get(byte_val, 0) / length` as a real. -/
noncomputable def freq (data : List Byte) (v : Byte) : ℝ :=
  (data.count v : ℝ) / (data.length : ℝ)

/-- Machine-code heuristic tail shared by both variants (sentinelnav.py
56-86): the x86, x64 and ARM64 scores, with Python
`max(scores, key=scores.get)` keeping the first key of maximal score in
insertion order x86, x86_64, ARM64.  `armLabel`, `hiDensity` and the
unknown label differ between the variants and are passed in. -/
noncomputable def identifyScores (data : List Byte) (armLabel : String)
    (lowScoreLabel : String) : String :=
  let sx86 := freq data 0xC3 * 5 + freq data 0x90 * 3 + freq data 0x55 * 2 + freq data 0x89
  let sx64 := sx86 + freq data 0x48 * 3
  let sarm : ℝ :=
    if 8 < data.length then
      (nullsAligned data : ℝ) / ((data.length : ℝ) / 4) * (5 / 2)
    else 0
  let best : String × ℝ :=
    if sx64 ≤ sx86 ∧ sarm ≤ sx86 then ("x86 (32-bit)", sx86)
    else if sarm ≤ sx64 then ("x86_64 (64-bit)", sx64)
    else (armLabel, sarm)
  if best.2 < 1 / 20 then lowScoreLabel
  else best.1 ++ " Code (Probable)"

/-- Embedding of the monolith `ArchID.identify` (sentinelnav.py 23-86).
The source computes `ent` once before the entropy branches; since the
function is pure, each branch condition here simply reuses `entropy data`.
On a 4-byte ELF prefix the source would raise IndexError reading `data[4]`;
`List.getD` returns 2 there, an arbitrary total stand-in for that crash
(no claim touches it). -/
noncomputable def identify (data : List Byte) : String :=
  if data = [] then "Empty Region"
  else if data.length < 4 then "Too small to analyze"
  else if data.take 2 = [0x4D, 0x5A] then "Windows PE Header (x86/64)"
  else if data.take 4 = [0x7F, 0x45, 0x4C, 0x46] then
    "Linux ELF Header " ++ (if data.getD 4 0 = 2 then "(64-bit)" else "(32-bit)")
  else if data.take 4 = [0xCA, 0xFE, 0xBA, 0xBE] ∨ data.take 4 = [0xFE, 0xED, 0xFA, 0xCE] then
    "Mac Mach-O Header"
  else if data.take 4 = [0x25, 0x50, 0x44, 0x46] then "PDF Document Header"
  else if data.take 4 = [0x89, 0x50, 0x4E, 0x47] then "PNG Image Header"
  else if data.take 3 = [0xFF, 0xD8, 0xFF] then "JPEG Image Header"
  else if entropy data < 1 then "Null Padding / Zero Space"
  else if entropy data < 3 then "Low Entropy (Sparse Data)"
  else if 79 / 10 < entropy data then "High Entropy (Crypto/Compressed)"
  else if 9 / 10 < (printableCount data : ℝ) / (data.length : ℝ) then
    "ASCII Text / Source Code"
  else
    identifyScores data "ARM64 / AArch64"
      (if 6 < entropy data then "Unknown High Density Data" else "Unknown Binary Data")

/-- Embedding of the package `ArchID.identify` (sentinel/core.py 18-53): no
PNG/JPEG magics, the printable-ratio check runs before the entropy checks,
there is no Low Entropy branch, and the low-score fallback is always
"Unknown Binary Data". -/
noncomputable def identifyPkg (data : List Byte) : String :=
  if data = [] then "Empty Region"
  else if data.length < 4 then "Too small to analyze"
  else if data.take 2 = [0x4D, 0x5A] then "Windows PE Header (x86/64)"
  else if data.take 4 = [0x7F, 0x45, 0x4C, 0x46] then
    "Linux ELF Header " ++ (if data.getD 4 0 = 2 then "(64-bit)" else "(32-bit)")
  else if data.take 4 = [0xCA, 0xFE, 0xBA, 0xBE] ∨ data.take 4 = [0xFE, 0xED, 0xFA, 0xCE] then
    "Mac Mach-O Header"
  else if data.take 4 = [0x25, 0x50, 0x44, 0x46] then "PDF Document Header"
  else if 9 / 10 < (printableCount data : ℝ) / (data.length : ℝ) then
    "ASCII Text / Source Code"
  else if entropy data < 1 then "Null Padding / Zero Space"
  else if 79 / 10 < entropy data then "High Entropy (Crypto/Compressed)"
  else identifyScores data "ARM64" "Unknown Binary Data"

/-! ## Helper lemmas for the scanners -/

lemma fixedChunks_nil (bs off : Nat) : fixedChunks bs off [] = [] := by
  rw [fixedChunks]
  simp

lemma fixedChunks_zero (off : Nat) (data : List Byte) : fixedChunks 0 off data = [] := by
  rw [fixedChunks]
  simp

lemma fixedChunks_cons (bs off : Nat) (data : List Byte) (h1 : bs ≠ 0) (h2 : data ≠ []) :
    fixedChunks bs off data =
      (off, data.take bs) ::
        fixedChunks bs (off + (data.take bs).length) (data.drop bs) := by
  rw [fixedChunks]
  simp [h1, h2]

lemma fixedChunks_flatten (bs : Nat) (hbs : 1 ≤ bs) :
    ∀ (n : Nat) (data : List Byte), data.length ≤ n → ∀ off : Nat,
      ((fixedChunks bs off data).map Prod.snd).flatten = data := by
  intro n
  induction n with
  | zero =>
    intro data h off
    have hd : data = [] := List.eq_nil_of_length_eq_zero (Nat.le_zero.mp h)
    simp [hd, fixedChunks_nil]
  | succ n ih =>
    intro data h off
    by_cases hd : data = []
    · simp [hd, fixedChunks_nil]
    · rw [fixedChunks_cons bs off data (by omega) hd]
      have hlen : (data.drop bs).length ≤ n := by
        have : data.length ≠ 0 := fun hl => hd (List.eq_nil_of_length_eq_zero hl)
        simp only [List.length_drop]
        omega
      simp only [List.map_cons, List.flatten_cons, ih (data.drop bs) hlen]
      exact List.take_append_drop bs data

lemma fixedChunks_contig (bs : Nat) :
    ∀ (n : Nat) (data : List Byte), data.length ≤ n → ∀ off : Nat,
      Contig off (fixedChunks bs off data) := by
  intro n
  induction n with
  | zero =>
    intro data h off
    have hd : data = [] := List.eq_nil_of_length_eq_zero (Nat.le_zero.mp h)
    simp [hd, fixedChunks_nil, Contig]
  | succ n ih =>
    intro data h off
    by_cases hbs : bs = 0
    · simp [hbs, fixedChunks_zero, Contig]
    by_cases hd : data = []
    · simp [hd, fixedChunks_nil, Contig]
    · rw [fixedChunks_cons bs off data hbs hd]
      refine ⟨rfl, ?_⟩
      have hlen : (data.drop bs).length ≤ n := by
        have : data.length ≠ 0 := fun hl => hd (List.eq_nil_of_length_eq_zero hl)
        simp only [List.length_drop]
        omega
      exact ih (data.drop bs) hlen _

lemma fixedChunks_body_nonempty (bs : Nat) :
    ∀ (n : Nat) (data : List Byte), data.length ≤ n → ∀ off : Nat,
      ∀ c ∈ fixedChunks bs off data, c.2 ≠ [] := by
  intro n
  induction n with
  | zero =>
    intro data h off
    have hd : data = [] := List.eq_nil_of_length_eq_zero (Nat.le_zero.mp h)
    simp [hd, fixedChunks_nil]
  | succ n ih =>
    intro data h off c hc
    by_cases hbs : bs = 0
    · rw [hbs, fixedChunks_zero] at hc
      exact absurd hc (List.not_mem_nil c)
    by_cases hd : data = []
    · rw [hd, fixedChunks_nil] at hc
      exact absurd hc (List.not_mem_nil c)
    · rw [fixedChunks_cons bs off data hbs hd] at hc
      have hlen : (data.drop bs).length ≤ n := by
        have : data.length ≠ 0 := fun hl => hd (List.eq_nil_of_length_eq_zero hl)
        simp only [List.length_drop]
        omega
      rcases List.mem_cons.mp hc with h0 | h1
      · subst h0
        intro hemp
        have hl := congrArg List.length hemp
        have : data.length ≠ 0 := fun hl2 => hd (List.eq_nil_of_length_eq_zero hl2)
        simp only [List.length_take, List.length_nil] at hl
        omega
      · exact ih (data.drop bs) hlen _ c h1

lemma sentinelCut_pos (d : Byte) (M : Nat) (r : List Byte) (hM : 1 ≤ M) (hr : r ≠ []) :
    1 ≤ sentinelCut d M r := by
  have hlen : 0 < r.length := List.length_pos.mpr hr
  unfold sentinelCut
  split <;> omega

lemma sentinelCut_le_length (d : Byte) (M : Nat) (r : List Byte) :
    sentinelCut d M r ≤ r.length := by
  unfold sentinelCut
  split <;> omega

lemma sentinelCut_le (d : Byte) (M : Nat) (r : List Byte) : sentinelCut d M r ≤ M := by
  unfold sentinelCut
  split <;> omega

lemma sentinelGo_flatten (d : Byte) (M : Nat) (hM : 1 ≤ M) :
    ∀ (fuel : Nat) (r : List Byte), r.length ≤ fuel → ∀ off : Nat,
      ((sentinelGo d M fuel off r).map Prod.snd).flatten = r := by
  intro fuel
  induction fuel with
  | zero =>
    intro r h off
    have hr : r = [] := List.eq_nil_of_length_eq_zero (Nat.le_zero.mp h)
    simp [hr, sentinelGo]
  | succ fuel ih =>
    intro r h off
    match r with
    | [] => simp [sentinelGo]
    | x :: rest =>
      have hne : (x :: rest) ≠ [] := List.cons_ne_nil x rest
      have hcut := sentinelCut_pos d M (x :: rest) hM hne
      have hlen : ((x :: rest).drop (sentinelCut d M (x :: rest))).length ≤ fuel := by
        simp only [List.length_drop]
        have := h
        simp only [List.length_cons] at this ⊢
        omega
      simp only [sentinelGo, List.map_cons, List.flatten_cons, ih _ hlen]
      exact List.take_append_drop _ _

lemma sentinelGo_contig (d : Byte) (M : Nat) (hM : 1 ≤ M) :
    ∀ (fuel : Nat) (r : List Byte), r.length ≤ fuel → ∀ off : Nat,
      Contig off (sentinelGo d M fuel off r) := by
  intro fuel
  induction fuel with
  | zero =>
    intro r h off
    have hr : r = [] := List.eq_nil_of_length_eq_zero (Nat.le_zero.mp h)
    simp [hr, sentinelGo, Contig]
  | succ fuel ih =>
    intro r h off
    match r with
    | [] => simp [sentinelGo, Contig]
    | x :: rest =>
      have hne : (x :: rest) ≠ [] := List.cons_ne_nil x rest
      have hcut := sentinelCut_pos d M (x :: rest) hM hne
      have hcl := sentinelCut_le_length d M (x :: rest)
      have hlen : ((x :: rest).drop (sentinelCut d M (x :: rest))).length ≤ fuel := by
        simp only [List.length_drop, List.length_cons] at h ⊢
        omega
      have htake : ((x :: rest).take (sentinelCut d M (x :: rest))).length =
          sentinelCut d M (x :: rest) := by
        simp only [List.length_take]
        omega
      refine ⟨rfl, ?_⟩
      rw [htake]
      exact ih _ hlen _

lemma sentinelGo_len_le (d : Byte) (M : Nat) :
    ∀ (fuel off : Nat) (r : List Byte), ∀ c ∈ sentinelGo d M fuel off r,
      c.2.length ≤ M := by
  intro fuel
  induction fuel with
  | zero => intro off r c hc; simp [sentinelGo] at hc
  | succ fuel ih =>
    intro off r c hc
    match r with
    | [] => simp [sentinelGo] at hc
    | x :: rest =>
      simp only [sentinelGo, List.mem_cons] at hc
      rcases hc with h0 | h1
      · subst h0
        simp only [List.length_take]
        have := sentinelCut_le d M (x :: rest)
        omega
      · exact ih _ _ c h1

lemma sentinelGo_body_nonempty (d : Byte) (M : Nat) (hM : 1 ≤ M) :
    ∀ (fuel off : Nat) (r : List Byte), ∀ c ∈ sentinelGo d M fuel off r,
      c.2 ≠ [] := by
  intro fuel
  induction fuel with
  | zero => intro off r c hc; simp [sentinelGo] at hc
  | succ fuel ih =>
    intro off r c hc
    match r with
    | [] => simp [sentinelGo] at hc
    | x :: rest =>
      simp only [sentinelGo, List.mem_cons] at hc
      rcases hc with h0 | h1
      · subst h0
        intro hemp
        have hl := congrArg List.length hemp
        have hcut := sentinelCut_pos d M (x :: rest) hM (List.cons_ne_nil x rest)
        simp only [List.length_take, List.length_nil, List.length_cons] at hl
        omega
      · exact ih _ _ c h1

lemma getLast?_take_succ (r : List Byte) (i : Nat) (h : i < r.length) :
    (r.take (i + 1)).getLast? = r[i]? := by
  have hlen : (r.take (i + 1)).length = i + 1 := by
    simp only [List.length_take]
    omega
  rw [List.getLast?_eq_getElem?, hlen]
  simp only [Nat.add_sub_cancel]
  exact List.getElem?_take_of_lt (Nat.lt_succ_self i)

lemma sentinelGo_nil (d : Byte) (M fuel off : Nat) : sentinelGo d M fuel off [] = [] := by
  cases fuel <;> rfl

lemma sentinelGo_dropLast_delim (d : Byte) (M : Nat) (hM : 1 ≤ M) :
    ∀ (fuel : Nat) (r : List Byte), r.length ≤ fuel → ∀ off : Nat,
      ∀ c ∈ (sentinelGo d M fuel off r).dropLast,
        c.2.length < M → c.2.getLast? = some d := by
  intro fuel
  induction fuel with
  | zero =>
    intro r h off c hc
    have hr : r = [] := List.eq_nil_of_length_eq_zero (Nat.le_zero.mp h)
    simp [hr, sentinelGo] at hc
  | succ fuel ih =>
    intro r h off c hc hlt
    match r with
    | [] => simp [sentinelGo] at hc
    | x :: rest =>
      have hne : (x :: rest) ≠ [] := List.cons_ne_nil x rest
      have hcut1 := sentinelCut_pos d M (x :: rest) hM hne
      have hcutl := sentinelCut_le_length d M (x :: rest)
      have hlen : ((x :: rest).drop (sentinelCut d M (x :: rest))).length ≤ fuel := by
        simp only [List.length_drop, List.length_cons] at h ⊢
        omega
      simp only [sentinelGo] at hc
      by_cases htail : sentinelGo d M fuel (off + sentinelCut d M (x :: rest))
          ((x :: rest).drop (sentinelCut d M (x :: rest))) = []
      · rw [htail] at hc
        simp at hc
      · rw [List.dropLast_cons_of_ne_nil htail] at hc
        rcases List.mem_cons.mp hc with h0 | h1
        · subst h0
          have hlt2 : sentinelCut d M (x :: rest) < M := by
            simp only [List.length_take, List.length_cons] at hlt
            simp only [List.length_cons] at hcutl
            omega
          by_cases hidx : (x :: rest).indexOf d < (x :: rest).length
          · have hmin : sentinelCut d M (x :: rest) =
                min ((x :: rest).indexOf d + 1) M := by
              unfold sentinelCut
              rw [if_pos hidx]
            have hcu : sentinelCut d M (x :: rest) = (x :: rest).indexOf d + 1 := by
              omega
            rw [hcu, getLast?_take_succ (x :: rest) ((x :: rest).indexOf d) hidx]
            rw [List.getElem?_eq_getElem hidx]
            exact congrArg some (List.getElem_indexOf hidx)
          · exfalso
            have hmin : sentinelCut d M (x :: rest) = min (x :: rest).length M := by
              unfold sentinelCut
              rw [if_neg hidx]
            have hcr : sentinelCut d M (x :: rest) = (x :: rest).length := by omega
            apply htail
            rw [hcr, List.drop_length, sentinelGo_nil]
        · exact ih _ hlen _ c h1 hlt

lemma sentinelChunks_head_len (d : Byte) (M : Nat) (r : List Byte) (hr : r ≠ [])
    (hidx : r.indexOf d < r.length) :
    (sentinelChunks d M r).head?.map (fun c => c.2.length) =
      some (min (r.indexOf d + 1) M) := by
  match r with
  | x :: rest =>
    have hcu : sentinelCut d M (x :: rest) = min ((x :: rest).indexOf d + 1) M := by
      unfold sentinelCut
      rw [if_pos hidx]
    unfold sentinelChunks
    simp only [List.length_cons, sentinelGo, List.head?_cons, Option.map_some',
      List.length_take, hcu]
    congr 1
    simp only [List.length_cons] at hidx ⊢
    omega

/-! ## Consequences of contiguity, phrased by index -/

lemma Contig.head_offset {o : Nat} {cs : List (Nat × List Byte)} (h : Contig o cs) :
    ∀ c, cs.head? = some c → c.1 = o := by
  match cs with
  | [] => intro c hc; simp at hc
  | c0 :: rest =>
    intro c hc
    simp only [List.head?_cons, Option.some_inj] at hc
    subst hc
    exact h.1

lemma Contig.adjacent {o : Nat} {cs : List (Nat × List Byte)} (h : Contig o cs) :
    ∀ (i : Nat) (c c2 : Nat × List Byte), cs[i]? = some c → cs[i + 1]? = some c2 →
      c.1 + c.2.length = c2.1 := by
  induction cs generalizing o with
  | nil => intro i c c2 hc; simp at hc
  | cons c0 rest ih =>
    intro i c c2 hc hc2
    match i with
    | 0 =>
      simp only [List.getElem?_cons_zero, Option.some_inj] at hc
      subst hc
      simp only [List.getElem?_cons_succ] at hc2
      have hhead : rest.head? = some c2 := by
        rw [List.head?_eq_getElem?]
        exact hc2
      have := h.2.head_offset c2 hhead
      rw [h.1, this]
    | i + 1 =>
      simp only [List.getElem?_cons_succ] at hc hc2
      exact ih h.2 i c c2 hc hc2

/-! ## Claim theorems -/

/-- C1: for every file and both chunking modes (FixedScanner with any
positive block size, SentinelScanner with any delimiter byte and positive
max size), concatenating the chunk bodies in emission order reproduces the
file exactly; equivalently the first chunk starts at offset 0 and each chunk
starts where the previous one ends. -/
theorem chunkers_cover_file (bs M : Nat) (d : Byte) (data : List Byte)
    (hbs : 1 ≤ bs) (hM : 1 ≤ M) :
    (((fixedChunks bs 0 data).map Prod.snd).flatten = data ∧
      (∀ c, (fixedChunks bs 0 data).head? = some c → c.1 = 0) ∧
      (∀ (i : Nat) (c c2 : Nat × List Byte), (fixedChunks bs 0 data)[i]? = some c →
        (fixedChunks bs 0 data)[i + 1]? = some c2 → c.1 + c.2.length = c2.1)) ∧
    (((sentinelChunks d M data).map Prod.snd).flatten = data ∧
      (∀ c, (sentinelChunks d M data).head? = some c → c.1 = 0) ∧
      (∀ (i : Nat) (c c2 : Nat × List Byte), (sentinelChunks d M data)[i]? = some c →
        (sentinelChunks d M data)[i + 1]? = some c2 → c.1 + c.2.length = c2.1)) := by
  have hfix := fixedChunks_contig bs data.length data le_rfl 0
  have hsen := sentinelGo_contig d M hM data.length data le_rfl 0
  refine ⟨⟨fixedChunks_flatten bs hbs data.length data le_rfl 0,
      hfix.head_offset, hfix.adjacent⟩,
    ⟨sentinelGo_flatten d M hM data.length data le_rfl 0,
      hsen.head_offset, hsen.adjacent⟩⟩

/-- Witness for C1 at block size 2, max size 2, delimiter 0, on the 3-byte
file [1, 2, 3]. -/
theorem chunkers_cover_file_witness :
    (1 ≤ 2 ∧ 1 ≤ 2) ∧
      ((fixedChunks 2 0 [1, 2, 3]).map Prod.snd).flatten = [1, 2, 3] ∧
      ((sentinelChunks 0 2 [1, 2, 3]).map Prod.snd).flatten = [1, 2, 3] :=
  ⟨⟨by norm_num, by norm_num⟩,
    (chunkers_cover_file 2 2 0 [1, 2, 3] (by norm_num) (by norm_num)).1.1,
    (chunkers_cover_file 2 2 0 [1, 2, 3] (by norm_num) (by norm_num)).2.1⟩

/-- C4: with delimiter `d` and max size `M ≥ 1`, every sentinel chunk has
length at most `M`; every non-final chunk of length strictly below `M` ends
with the delimiter byte; and when the first delimiter of the remaining
input sits at relative index `k`, the chunk emitted next has length
`min (k + 1) M`. -/
theorem sentinel_chunk_bounds (d : Byte) (M : Nat) (data : List Byte) (hM : 1 ≤ M) :
    (∀ c ∈ sentinelChunks d M data, c.2.length ≤ M) ∧
    (∀ c ∈ (sentinelChunks d M data).dropLast,
      c.2.length < M → c.2.getLast? = some d) ∧
    (∀ r : List Byte, r.indexOf d < r.length →
      (sentinelChunks d M r).head?.map (fun c => c.2.length) =
        some (min (r.indexOf d + 1) M)) := by
  refine ⟨fun c hc => sentinelGo_len_le d M data.length 0 data c hc,
    fun c hc hlt => sentinelGo_dropLast_delim d M hM data.length data le_rfl 0 c hc hlt,
    fun r hidx => ?_⟩
  have hr : r ≠ [] := by
    intro hnil
    rw [hnil] at hidx
    simp at hidx
  exact sentinelChunks_head_len d M r hr hidx

/-- Witness for C4 with delimiter 0, max size 2, on the file [5, 0, 7]. -/
theorem sentinel_chunk_bounds_witness :
    1 ≤ 2 ∧ (∀ c ∈ sentinelChunks 0 2 [5, 0, 7], c.2.length ≤ 2) :=
  ⟨by norm_num, (sentinel_chunk_bounds 0 2 [5, 0, 7] (by norm_num)).1⟩

/-- C9: every chunk yielded by either scanner has a non-empty body, so the
empty-data branch of the worker is never taken during a scan: on every
yielded chunk the worker record carries the actual chunk length, never the
zero record of the empty branch. -/
theorem chunk_bodies_nonempty (bs M : Nat) (d : Byte) (data : List Byte) (hM : 1 ≤ M) :
    (∀ c ∈ fixedChunks bs 0 data,
      c.2 ≠ [] ∧ (workerScan c).length = c.2.length ∧ (workerScan c).length ≠ 0) ∧
    (∀ c ∈ sentinelChunks d M data,
      c.2 ≠ [] ∧ (workerScan c).length = c.2.length ∧ (workerScan c).length ≠ 0) := by
  have hw : ∀ c : Nat × List Byte, c.2 ≠ [] →
      (workerScan c).length = c.2.length ∧ (workerScan c).length ≠ 0 := by
    intro c hne
    have : (workerScan c).length = c.2.length := by
      simp [workerScan, hne]
    refine ⟨this, ?_⟩
    rw [this]
    intro hz
    exact hne (List.eq_nil_of_length_eq_zero hz)
  constructor
  · intro c hc
    have hne := fixedChunks_body_nonempty bs data.length data le_rfl 0 c hc
    exact ⟨hne, hw c hne⟩
  · intro c hc
    have hne := sentinelGo_body_nonempty d M hM data.length 0 data c hc
    exact ⟨hne, hw c hne⟩

/-- Witness for C9 at block size 4, max size 1, delimiter 0, file [7]. -/
theorem chunk_bodies_nonempty_witness :
    1 ≤ 1 ∧ (∀ c ∈ fixedChunks 4 0 [7],
      c.2 ≠ [] ∧ (workerScan c).length = c.2.length ∧ (workerScan c).length ≠ 0) :=
  ⟨le_rfl, (chunk_bodies_nonempty 4 1 0 [7] le_rfl).1⟩

/-- C3: paging over the dense 1-based id log: the page at `page_num` with
positive `page_size` consists exactly of the records with id in
`[page_num * page_size + 1, (page_num + 1) * page_size]`, that is the rows
at 0-based positions `page_num * page_size + i` for `i < page_size`, in
increasing id order, projected to the chunk and anomaly tuples. -/
theorem get_page_ids (e : DataEngine) (p s : Nat) (hs : 0 < s) :
    ((e.get_page p s).1.length = min s (e.rows.length - p * s)) ∧
    ((e.get_page p s).2.length = (e.get_page p s).1.length) ∧
    (∀ i : Nat, (e.get_page p s).1[i]? =
      if i < s then
        (e.rows[p * s + i]?).map (fun r => (r.offset, r.length, r.ent, r.r, r.g, r.b))
      else none) ∧
    (∀ i : Nat, (e.get_page p s).2[i]? =
      if i < s then (e.rows[p * s + i]?).map (fun r => (round2R r.anom, r.flux))
      else none) := by
  have hsel : ∀ i : Nat, ((e.rows.drop (p * s)).take s)[i]? =
      if i < s then e.rows[p * s + i]? else none := by
    intro i
    by_cases hi : i < s
    · rw [if_pos hi, List.getElem?_take_of_lt hi, List.getElem?_drop]
    · rw [if_neg hi]
      apply List.getElem?_eq_none
      simp only [List.length_take]
      omega
  unfold DataEngine.get_page
  simp only [List.length_map, List.length_take, List.length_drop, List.getElem?_map]
  refine ⟨trivial, trivial, fun i => ?_, fun i => ?_⟩ <;>
    · rw [hsel i]
      by_cases hi : i < s <;> simp [hi]

/-- Witness for C3 on a three-row store, page 1 of size 2. -/
theorem get_page_ids_witness :
    0 < 2 ∧
      ((DataEngine.mk [⟨0, 1, 0, 0, 0, 0, 0, 0⟩, ⟨1, 1, 0, 0, 0, 0, 0, 0⟩,
          ⟨2, 1, 0, 0, 0, 0, 0, 0⟩]).get_page 1 2).1.length =
        min 2 ((DataEngine.mk [⟨0, 1, 0, 0, 0, 0, 0, 0⟩, ⟨1, 1, 0, 0, 0, 0, 0, 0⟩,
          ⟨2, 1, 0, 0, 0, 0, 0, 0⟩]).rows.length - 1 * 2) :=
  ⟨by norm_num,
    (get_page_ids (DataEngine.mk [⟨0, 1, 0, 0, 0, 0, 0, 0⟩, ⟨1, 1, 0, 0, 0, 0, 0, 0⟩,
      ⟨2, 1, 0, 0, 0, 0, 0, 0⟩]) 1 2 (by norm_num)).1⟩

/-- C10: when path validation succeeds and the scan then fails, the session
keeps the newly requested file path (assigned before the scan ran, never
rolled back) while the handler answers 500. -/
theorem load_path_not_rolled_back (st : Session) (newPath : String)
    (scanResult : Option DataEngine) (hfail : scanResult = none) :
    (doPostLoad st newPath true scanResult).1.filePath = newPath ∧
    (doPostLoad st newPath true scanResult).2 = 500 := by
  subst hfail
  simp [doPostLoad]

/-- Witness for C10: a failing scan after validating the path "new". -/
theorem load_path_not_rolled_back_witness :
    (none : Option DataEngine) = none ∧
      (doPostLoad ⟨"old", ⟨[]⟩⟩ "new" true none).1.filePath = "new" ∧
      (doPostLoad ⟨"old", ⟨[]⟩⟩ "new" true none).2 = 500 :=
  ⟨rfl, (load_path_not_rolled_back ⟨"old", ⟨[]⟩⟩ "new" none rfl).1,
    (load_path_not_rolled_back ⟨"old", ⟨[]⟩⟩ "new" none rfl).2⟩

/-! ## Detector lemmas -/

lemma detectRun_length (w : Nat) :
    ∀ (recs : List WorkerRec) (hist : List ℝ) (prev : ℝ),
      (detectRun w hist prev recs).length = recs.length := by
  intro recs
  induction recs with
  | nil => intro hist prev; rfl
  | cons rec rest ih =>
    intro hist prev
    simp only [detectRun, List.length_cons, ih]

lemma scanRecords_length (w : Nat) (chunks : List (Nat × List Byte)) :
    (scanRecords w chunks).length = chunks.length := by
  simp [scanRecords, detectRun_length]

lemma detectRun_flux (w : Nat) :
    ∀ (recs : List WorkerRec) (hist : List ℝ) (prev : ℝ) (i : Nat) (hi : i < recs.length),
      ((detectRun w hist prev recs)[i]?).map Row.flux =
        some (fluxOf ((recs.get ⟨i, hi⟩).ent -
          (if h0 : i = 0 then prev else (recs.get ⟨i - 1, by omega⟩).ent))
          (recs.get ⟨i, hi⟩).ent) := by
  intro recs
  induction recs with
  | nil => intro hist prev i hi; simp at hi
  | cons rec rest ih =>
    intro hist prev i hi
    by_cases h0 : i = 0
    · subst h0
      simp [detectRun]
    · match i, h0 with
      | i + 1, _ =>
        have hi2 : i < rest.length := by
          simp only [List.length_cons] at hi
          omega
        simp only [detectRun, List.getElem?_cons_succ]
        rw [ih _ rec.ent i hi2]
        have h1 : ¬(i + 1 = 0) := by omega
        rw [dif_neg h1]
        by_cases hz : i = 0
        · subst hz
          rw [dif_pos rfl]
          norm_num [List.get]
        · rw [dif_neg hz]
          match i, hz with
          | i + 1, _ => simp [List.get]

lemma fluxOf_cases (delta ent : ℝ) :
    (fluxOf delta ent = 1 ↔ 3 / 2 < delta ∧ 6 < ent) ∧
    (fluxOf delta ent = 2 ↔ ¬(3 / 2 < delta ∧ 6 < ent) ∧ delta < -(3 / 2) ∧ ent < 3) ∧
    (fluxOf delta ent = 3 ↔ ¬(3 / 2 < delta ∧ 6 < ent) ∧
      ¬(delta < -(3 / 2) ∧ ent < 3) ∧ 159 / 20 < ent) ∧
    (fluxOf delta ent = 0 ↔ ¬(3 / 2 < delta ∧ 6 < ent) ∧
      ¬(delta < -(3 / 2) ∧ ent < 3) ∧ ¬(159 / 20 < ent)) := by
  unfold fluxOf
  split_ifs with h1 h2 h3 <;> simp_all

/-- C5: in the ordered record stream consumed by the anomaly detector, with
`delta` the entropy minus the previous entropy (0 before the first record),
`flux_type` is 1 iff `delta > 1.5` and `H > 6.0`; 2 iff rule 1 does not fire
and `delta < -1.5` and `H < 3.0`; 3 iff neither earlier rule fires and
`H > 7.95`; and 0 iff no rule fires: first match wins and exactly one flux
value is produced per record. -/
theorem flux_rules (w : Nat) (recs : List WorkerRec) (i : Nat) (hi : i < recs.length) :
    ∃ out : Row, (detectRun w [] 0 recs)[i]? = some out ∧
      ((out.flux = 1 ↔ 3 / 2 < (recs.get ⟨i, hi⟩).ent -
          (if h0 : i = 0 then (0 : ℝ) else (recs.get ⟨i - 1, by omega⟩).ent) ∧
          6 < (recs.get ⟨i, hi⟩).ent) ∧
        (out.flux = 2 ↔ ¬(3 / 2 < (recs.get ⟨i, hi⟩).ent -
          (if h0 : i = 0 then (0 : ℝ) else (recs.get ⟨i - 1, by omega⟩).ent) ∧
          6 < (recs.get ⟨i, hi⟩).ent) ∧
          ((recs.get ⟨i, hi⟩).ent -
            (if h0 : i = 0 then (0 : ℝ) else (recs.get ⟨i - 1, by omega⟩).ent) < -(3 / 2) ∧
          (recs.get ⟨i, hi⟩).ent < 3)) ∧
        (out.flux = 3 ↔ ¬(3 / 2 < (recs.get ⟨i, hi⟩).ent -
          (if h0 : i = 0 then (0 : ℝ) else (recs.get ⟨i - 1, by omega⟩).ent) ∧
          6 < (recs.get ⟨i, hi⟩).ent) ∧
          ¬((recs.get ⟨i, hi⟩).ent -
            (if h0 : i = 0 then (0 : ℝ) else (recs.get ⟨i - 1, by omega⟩).ent) < -(3 / 2) ∧
          (recs.get ⟨i, hi⟩).ent < 3) ∧ 159 / 20 < (recs.get ⟨i, hi⟩).ent) ∧
        (out.flux = 0 ↔ ¬(3 / 2 < (recs.get ⟨i, hi⟩).ent -
          (if h0 : i = 0 then (0 : ℝ) else (recs.get ⟨i - 1, by omega⟩).ent) ∧
          6 < (recs.get ⟨i, hi⟩).ent) ∧
          ¬((recs.get ⟨i, hi⟩).ent -
            (if h0 : i = 0 then (0 : ℝ) else (recs.get ⟨i - 1, by omega⟩).ent) < -(3 / 2) ∧
          (recs.get ⟨i, hi⟩).ent < 3) ∧ ¬(159 / 20 < (recs.get ⟨i, hi⟩).ent))) := by
  have hmap := detectRun_flux w recs [] 0 i hi
  have hlen : i < (detectRun w [] 0 recs).length := by
    rw [detectRun_length]
    exact hi
  obtain ⟨out, hout⟩ : ∃ out, (detectRun w [] 0 recs)[i]? = some out :=
    ⟨_, List.getElem?_eq_getElem hlen⟩
  refine ⟨out, hout, ?_⟩
  rw [hout, Option.map_some', Option.some_inj] at hmap
  rw [hmap]
  exact fluxOf_cases _ _

/-- Witness for C5: on the stream with entropies 0 then 7, the second record
fires rule 1 (spike). -/
theorem flux_rules_witness :
    1 < ([⟨0, 1, 0, 0, 0, 0⟩, ⟨1, 1, 7, 0, 0, 0⟩] : List WorkerRec).length ∧
      ((detectRun 5 [] 0 [⟨0, 1, 0, 0, 0, 0⟩, ⟨1, 1, 7, 0, 0, 0⟩])[1]?).map Row.flux =
        some 1 := by
  refine ⟨by norm_num, ?_⟩
  obtain ⟨out, hout, hiff⟩ :=
    flux_rules 5 [⟨0, 1, 0, 0, 0, 0⟩, ⟨1, 1, 7, 0, 0, 0⟩] 1 (by norm_num)
  have hflux : out.flux = 1 := by
    apply hiff.1.mpr
    norm_num [List.get]
  rw [hout, Option.map_some', hflux]

/-- C2 (failing evaluation): the package Processor.run appends into the
engine handed to it by the /load handler, so after a second successful load
of a one-chunk file the store totals 2 records, while the claim (and the
monolith Processor.run, which rebuilds the engine) gives exactly 1. -/
theorem load_appends_in_package :
    (processorRunPkg (processorRunPkg ⟨[]⟩ 5 (fixedChunks 1024 0 [0x41]))
        5 (fixedChunks 1024 0 [0x41])).get_total_count = 2 ∧
    (fixedChunks 1024 0 [0x41]).length = 1 ∧
    (processorRunMono 5 (fixedChunks 1024 0 [0x41])).get_total_count = 1 := by
  have h1 : (fixedChunks 1024 0 [(0x41 : Byte)]).length = 1 := by
    rw [fixedChunks_cons 1024 0 [(0x41 : Byte)] (by norm_num) (by simp)]
    simp [fixedChunks_nil]
  refine ⟨?_, h1, ?_⟩ <;>
    simp [processorRunPkg, processorRunMono, DataEngine.insert_bulk,
      DataEngine.get_total_count, scanRecords_length, h1]

/-! ## Band fraction arithmetic (C6) -/

/-- Every byte lands in exactly one of the four classes R, G, B, 0x7F. -/
lemma band_partition (data : List Byte) :
    rCount data + gCount data + bCount data + count7F data = data.length := by
  induction data with
  | nil => rfl
  | cons a l ih =>
    have ha : (if decide (0x80 ≤ a.val) then 1 else 0) +
        (if decide (0x20 ≤ a.val ∧ a.val ≤ 0x7E) then 1 else 0) +
        (if decide (a.val ≤ 0x1F) then 1 else 0) +
        (if decide (a.val = 0x7F) then 1 else 0) = 1 := by
      revert a
      decide
    simp only [rCount, gCount, bCount, count7F, List.countP_cons, List.length_cons] at ih ⊢
    omega

/-- C6 (counterexample): on the 3-byte chunk [0x80, 0x20, 0x00] each band
fraction is 1/3, stored rounded to 0.333, so the stored fractions sum to
0.999 while `1 - count_of_0x7F / length` is 1. -/
theorem stored_fracs_sum_cex :
    (workerScan (0, [0x80, 0x20, 0x00])).r + (workerScan (0, [0x80, 0x20, 0x00])).g +
        (workerScan (0, [0x80, 0x20, 0x00])).b = 999 / 1000 ∧
    1 - (count7F [0x80, 0x20, 0x00] : ℚ) / (([0x80, 0x20, 0x00] : List Byte).length : ℚ)
        = 1 ∧
    (999 / 1000 : ℚ) ≠ 1 := by
  have hfl : ⌊(1000 / 3 : ℚ)⌋ = 333 := by
    rw [Int.floor_eq_iff]
    norm_num
  have hfl2 : ⌊(1000 / 3 + 1 / 2 : ℚ)⌋ = 333 := by
    rw [Int.floor_eq_iff]
    norm_num
  have hr3 : round3 (1 / 3 : ℚ) = 333 / 1000 := by
    unfold round3 roundHalfEven
    norm_num [hfl, hfl2, round_eq]
  have hrc : rCount [(0x80 : Byte), 0x20, 0x00] = 1 := by decide
  have hgc : gCount [(0x80 : Byte), 0x20, 0x00] = 1 := by decide
  have hbc : bCount [(0x80 : Byte), 0x20, 0x00] = 1 := by decide
  have h7 : count7F [(0x80 : Byte), 0x20, 0x00] = 0 := by decide
  refine ⟨?_, ?_, by norm_num⟩
  · have hne : ([(0x80 : Byte), 0x20, 0x00] : List Byte) ≠ [] := by simp
    simp only [workerScan, hne, if_neg, List.length_cons, List.length_nil]
    rw [if_neg (by simp)]
    simp only [hrc, hgc, hbc]
    norm_num [hr3]
  · rw [h7]
    norm_num

/-- C6 (amended): before rounding, the three band fractions of a non-empty
chunk sum to exactly `1 - count_of_0x7F / length`, which lies in [0, 1];
the stored fields are these fractions rounded to 3 decimals. -/
theorem band_fracs_exact (data : List Byte) (h : data ≠ []) :
    0 ≤ ((rCount data : ℚ) + (gCount data : ℚ) + (bCount data : ℚ)) / (data.length : ℚ) ∧
    ((rCount data : ℚ) + (gCount data : ℚ) + (bCount data : ℚ)) / (data.length : ℚ) ≤ 1 ∧
    ((rCount data : ℚ) + (gCount data : ℚ) + (bCount data : ℚ)) / (data.length : ℚ)
      = 1 - (count7F data : ℚ) / (data.length : ℚ) ∧
    (workerScan (0, data)).r = round3 ((rCount data : ℚ) / (data.length : ℚ)) ∧
    (workerScan (0, data)).g = round3 ((gCount data : ℚ) / (data.length : ℚ)) ∧
    (workerScan (0, data)).b = round3 ((bCount data : ℚ) / (data.length : ℚ)) := by
  have hp := band_partition data
  have hL : 0 < data.length := List.length_pos.mpr h
  have hLq : (0 : ℚ) < (data.length : ℚ) := by exact_mod_cast hL
  have hsum : (rCount data : ℚ) + (gCount data : ℚ) + (bCount data : ℚ)
      = (data.length : ℚ) - (count7F data : ℚ) := by
    have : ((rCount data + gCount data + bCount data + count7F data : Nat) : ℚ)
        = ((data.length : Nat) : ℚ) := by exact_mod_cast congrArg Nat.cast hp
    push_cast at this
    linarith
  refine ⟨?_, ?_, ?_, ?_, ?_, ?_⟩
  · positivity
  · rw [div_le_one hLq, hsum]
    have : (0 : ℚ) ≤ (count7F data : ℚ) := by positivity
    linarith
  · rw [hsum, sub_div, div_self (ne_of_gt hLq)]
  · simp [workerScan, h]
  · simp [workerScan, h]
  · simp [workerScan, h]

/-- Witness for the amended C6 on the chunk [0x80, 0x20, 0x00]. -/
theorem band_fracs_exact_witness :
    ([(0x80 : Byte), 0x20, 0x00] : List Byte) ≠ [] ∧
      ((rCount [(0x80 : Byte), 0x20, 0x00] : ℚ) + (gCount [(0x80 : Byte), 0x20, 0x00] : ℚ) +
          (bCount [(0x80 : Byte), 0x20, 0x00] : ℚ)) /
          (([(0x80 : Byte), 0x20, 0x00] : List Byte).length : ℚ)
        = 1 - (count7F [(0x80 : Byte), 0x20, 0x00] : ℚ) /
          (([(0x80 : Byte), 0x20, 0x00] : List Byte).length : ℚ) :=
  ⟨by simp, (band_fracs_exact [(0x80 : Byte), 0x20, 0x00] (by simp)).2.2.1⟩

/-! ## Entropy lemmas (C7) -/

lemma sum_count_eq_length (data : List Byte) :
    ∑ b : Byte, data.count b = data.length := by
  induction data with
  | nil => simp
  | cons a l ih =>
    simp only [List.count_cons, beq_iff_eq, List.length_cons, Finset.sum_add_distrib, ih]
    rw [Finset.sum_ite_eq Finset.univ a (fun _ => 1)]
    simp

lemma entropy_nil : entropy [] = 0 := by
  simp [entropy]

lemma entropy_const (b : Byte) (data : List Byte) (hne : data ≠ [])
    (hall : ∀ x ∈ data, x = b) : entropy data = 0 := by
  have hcb : data.count b = data.length :=
    List.count_eq_length.mpr (fun y hy => (hall y hy).symm)
  have hsum : (∑ x : Byte, Real.negMulLog ((data.count x : ℝ) / (data.length : ℝ))) = 0 := by
    rw [Finset.sum_eq_single b]
    · rw [hcb]
      have hL : (data.length : ℝ) ≠ 0 := by
        have := List.length_pos.mpr hne
        positivity
      rw [div_self hL, Real.negMulLog_one]
    · intro x _ hx
      have hzero : data.count x = 0 :=
        List.count_eq_zero.mpr (fun hmem => hx (hall x hmem))
      rw [hzero]
      simp
    · intro hb
      exact absurd (Finset.mem_univ b) hb
  rw [entropy, if_neg hne, hsum, zero_div]

lemma entropy_uniform256 (data : List Byte) (hlen : data.length = 256)
    (hcnt : ∀ b : Byte, data.count b = 1) : entropy data = 8 := by
  have hne : data ≠ [] := by
    intro hnil
    rw [hnil] at hlen
    simp at hlen
  have hlog2 : Real.log 2 ≠ 0 := (Real.log_pos one_lt_two).ne'
  have hsum : (∑ b : Byte, Real.negMulLog ((data.count b : ℝ) / (data.length : ℝ)))
      = 8 * Real.log 2 := by
    have hterm : ∀ b : Byte,
        Real.negMulLog ((data.count b : ℝ) / (data.length : ℝ))
          = Real.negMulLog (1 / 256) := by
      intro b
      rw [hcnt b, hlen]
      norm_num
    rw [Finset.sum_congr rfl (fun b _ => hterm b), Finset.sum_const]
    have hcard : (Finset.univ : Finset Byte).card = 256 := by simp
    have hval : Real.negMulLog (1 / 256) = (1 / 256) * Real.log 256 := by
      rw [Real.negMulLog, show ((1 : ℝ) / 256) = (256 : ℝ)⁻¹ by norm_num, Real.log_inv]
      ring
    rw [hcard, hval, nsmul_eq_mul]
    have h256 : (256 : ℝ) = 2 ^ (8 : ℕ) := by norm_num
    rw [h256, Real.log_pow]
    push_cast
    ring
  rw [entropy, if_neg hne, hsum, mul_div_assoc, div_self hlog2, mul_one]

lemma entropy_nonneg (data : List Byte) : 0 ≤ entropy data := by
  rw [entropy]
  by_cases hne : data = []
  · simp [hne]
  · rw [if_neg hne]
    apply div_nonneg
    · apply Finset.sum_nonneg
      intro b _
      apply Real.negMulLog_nonneg
      · positivity
      · have hc := List.count_le_length b data
        have hL : 0 < data.length := List.length_pos.mpr hne
        rw [div_le_one (by exact_mod_cast hL)]
        exact_mod_cast hc
    · exact Real.log_nonneg one_le_two

lemma entropy_le_eight (data : List Byte) : entropy data ≤ 8 := by
  rw [entropy]
  by_cases hne : data = []
  · rw [if_pos hne]
    norm_num
  · rw [if_neg hne]
    have hL : 0 < data.length := List.length_pos.mpr hne
    have hLr : (0 : ℝ) < (data.length : ℝ) := by exact_mod_cast hL
    have hlog2 : (0 : ℝ) < Real.log 2 := Real.log_pos one_lt_two
    set S : Finset Byte := Finset.univ.filter (fun b => 0 < data.count b) with hS
    have hzero : ∀ b ∈ (Finset.univ : Finset Byte), b ∉ S →
        Real.negMulLog ((data.count b : ℝ) / (data.length : ℝ)) = 0 := by
      intro b _ hb
      have : ¬ 0 < data.count b := by
        intro hpos
        exact hb (Finset.mem_filter.mpr ⟨Finset.mem_univ b, hpos⟩)
      have hc0 : data.count b = 0 := by omega
      rw [hc0]
      simp
    have hrestrict :
        (∑ b : Byte, Real.negMulLog ((data.count b : ℝ) / (data.length : ℝ)))
          = ∑ b ∈ S, Real.negMulLog ((data.count b : ℝ) / (data.length : ℝ)) :=
      (Finset.sum_subset (Finset.filter_subset _ _) hzero).symm
    have hppos : ∀ b ∈ S, 0 < (data.count b : ℝ) / (data.length : ℝ) := by
      intro b hb
      have hpos := (Finset.mem_filter.mp hb).2
      have : (0 : ℝ) < (data.count b : ℝ) := by exact_mod_cast hpos
      positivity
    have hw1 : (∑ b ∈ S, (data.count b : ℝ) / (data.length : ℝ)) = 1 := by
      rw [← Finset.sum_div]
      have hSsum : (∑ b ∈ S, (data.count b : ℝ)) = (data.length : ℝ) := by
        have hfull : (∑ b : Byte, (data.count b : ℝ)) = (data.length : ℝ) := by
          exact_mod_cast congrArg (Nat.cast (R := ℝ)) (sum_count_eq_length data)
        rw [← hfull]
        apply Finset.sum_subset (Finset.filter_subset _ _)
        intro b _ hb
        have : ¬ 0 < data.count b := by
          intro hpos
          exact hb (Finset.mem_filter.mpr ⟨Finset.mem_univ b, hpos⟩)
        have hc0 : data.count b = 0 := by omega
        rw [hc0]
        norm_num
      rw [hSsum, div_self (ne_of_gt hLr)]
    have hjensen :
        (∑ b ∈ S, ((data.count b : ℝ) / (data.length : ℝ)) •
            Real.log (((data.count b : ℝ) / (data.length : ℝ))⁻¹))
          ≤ Real.log (∑ b ∈ S, ((data.count b : ℝ) / (data.length : ℝ)) •
            ((data.count b : ℝ) / (data.length : ℝ))⁻¹) := by
      apply (strictConcaveOn_log_Ioi.concaveOn).le_map_sum
      · intro b hb
        exact le_of_lt (hppos b hb)
      · exact hw1
      · intro b hb
        exact Set.mem_Ioi.mpr (inv_pos.mpr (hppos b hb))
    have hinner : (∑ b ∈ S, ((data.count b : ℝ) / (data.length : ℝ)) •
        ((data.count b : ℝ) / (data.length : ℝ))⁻¹) = (S.card : ℝ) := by
      rw [Finset.sum_congr rfl (fun b hb => ?_)]
      · rw [Finset.sum_const, nsmul_eq_mul, mul_one]
      · rw [smul_eq_mul, mul_inv_cancel₀ (ne_of_gt (hppos b hb))]
    have hterm : ∀ b ∈ S,
        Real.negMulLog ((data.count b : ℝ) / (data.length : ℝ))
          = ((data.count b : ℝ) / (data.length : ℝ)) •
            Real.log (((data.count b : ℝ) / (data.length : ℝ))⁻¹) := by
      intro b hb
      rw [smul_eq_mul, Real.log_inv, Real.negMulLog]
      ring
    have hcard_pos : 0 < S.card := by
      have hmem : data.head hne ∈ data := List.head_mem hne
      have hcnt : 0 < data.count (data.head hne) := List.count_pos_iff.mpr hmem
      have : data.head hne ∈ S := Finset.mem_filter.mpr ⟨Finset.mem_univ _, hcnt⟩
      exact Finset.card_pos.mpr ⟨_, this⟩
    have hcard_le : S.card ≤ 256 := by
      have h1 := Finset.card_filter_le (Finset.univ : Finset Byte)
        (fun b => 0 < data.count b)
      rw [← hS] at h1
      have h2 : (Finset.univ : Finset Byte).card = 256 := by simp
      omega
    have hlogcard : Real.log (S.card : ℝ) ≤ 8 * Real.log 2 := by
      have h1 : Real.log (S.card : ℝ) ≤ Real.log 256 := by
        apply Real.log_le_log (by exact_mod_cast hcard_pos)
        exact_mod_cast hcard_le
      have h2 : Real.log (256 : ℝ) = 8 * Real.log 2 := by
        rw [show (256 : ℝ) = 2 ^ (8 : ℕ) by norm_num, Real.log_pow]
        push_cast
        ring
      linarith
    rw [div_le_iff₀ hlog2, hrestrict,
      Finset.sum_congr rfl hterm]
    calc (∑ b ∈ S, ((data.count b : ℝ) / (data.length : ℝ)) •
            Real.log (((data.count b : ℝ) / (data.length : ℝ))⁻¹))
        ≤ Real.log (∑ b ∈ S, ((data.count b : ℝ) / (data.length : ℝ)) •
            ((data.count b : ℝ) / (data.length : ℝ))⁻¹) := hjensen
      _ = Real.log (S.card : ℝ) := by rw [hinner]
      _ ≤ 8 * Real.log 2 := hlogcard

/-- C7: entropy of the empty input is 0; entropy of any non-empty constant
input is 0; entropy of any 256-byte input containing each byte value exactly
once is within 1e-9 of 8.0 (it equals 8 exactly in the real model); and
every entropy value lies in [0, 8]. -/
theorem entropy_props :
    entropy [] = 0 ∧
    (∀ (b : Byte) (data : List Byte), data ≠ [] → (∀ x ∈ data, x = b) →
      entropy data = 0) ∧
    (∀ data : List Byte, data.length = 256 → (∀ b : Byte, data.count b = 1) →
      |entropy data - 8| ≤ 1 / 1000000000) ∧
    (∀ data : List Byte, 0 ≤ entropy data ∧ entropy data ≤ 8) := by
  refine ⟨entropy_nil, entropy_const, fun data hlen hcnt => ?_,
    fun data => ⟨entropy_nonneg data, entropy_le_eight data⟩⟩
  rw [entropy_uniform256 data hlen hcnt]
  norm_num

/-- Witness for C7: the constant 2-byte input [5, 5] and the full-range
256-byte input `List.finRange 256`. -/
theorem entropy_props_witness :
    (([5, 5] : List Byte) ≠ [] ∧ (∀ x ∈ ([5, 5] : List Byte), x = 5) ∧
      (List.finRange 256).length = 256 ∧ (∀ b : Byte, (List.finRange 256).count b = 1)) ∧
    entropy [5, 5] = 0 ∧
    |entropy (List.finRange 256) - 8| ≤ 1 / 1000000000 := by
  have hlen : (List.finRange 256).length = 256 := List.length_finRange 256
  have hcnt : ∀ b : Byte, (List.finRange 256).count b = 1 := fun b =>
    List.count_eq_one_of_mem (List.nodup_finRange 256) (List.mem_finRange b)
  exact ⟨⟨by simp, by simp, hlen, hcnt⟩,
    entropy_props.2.1 5 [5, 5] (by simp) (by simp),
    entropy_props.2.2.1 (List.finRange 256) hlen hcnt⟩

/-! ## Fingerprint rule order (C8) -/

/-- Entropy of the 4-byte slice "aabb": two symbols with probability 1/2
each give exactly one bit. -/
lemma entropy_aabb : entropy [0x61, 0x61, 0x62, 0x62] = 1 := by
  have hne : ([0x61, 0x61, 0x62, 0x62] : List Byte) ≠ [] := by simp
  rw [entropy, if_neg hne]
  have hzero : ∀ b ∈ (Finset.univ : Finset Byte),
      b ∉ ({(0x61 : Byte), 0x62} : Finset Byte) →
      Real.negMulLog ((([0x61, 0x61, 0x62, 0x62] : List Byte).count b : ℝ) /
        ((([0x61, 0x61, 0x62, 0x62] : List Byte).length : ℕ) : ℝ)) = 0 := by
    intro b _ hb
    simp only [Finset.mem_insert, Finset.mem_singleton] at hb
    push_neg at hb
    have hc : ([0x61, 0x61, 0x62, 0x62] : List Byte).count b = 0 := by
      rw [List.count_eq_zero]
      intro hmem
      simp only [List.mem_cons, List.not_mem_nil, or_false] at hmem
      rcases hmem with h | h | h | h
      · exact hb.1 h
      · exact hb.1 h
      · exact hb.2 h
      · exact hb.2 h
    rw [hc]
    simp
  rw [← Finset.sum_subset (Finset.subset_univ ({(0x61 : Byte), 0x62} : Finset Byte)) hzero]
  rw [Finset.sum_insert (by decide), Finset.sum_singleton]
  have hc1 : ([0x61, 0x61, 0x62, 0x62] : List Byte).count 0x61 = 2 := by decide
  have hc2 : ([0x61, 0x61, 0x62, 0x62] : List Byte).count 0x62 = 2 := by decide
  have hlen : ([0x61, 0x61, 0x62, 0x62] : List Byte).length = 4 := rfl
  rw [hc1, hc2, hlen]
  have hhalf : ((2 : ℕ) : ℝ) / ((4 : ℕ) : ℝ) = 1 / 2 := by norm_num
  have hnml : Real.negMulLog (1 / 2 : ℝ) = 1 / 2 * Real.log 2 := by
    rw [Real.negMulLog, show (1 / 2 : ℝ) = (2 : ℝ)⁻¹ by norm_num, Real.log_inv]
    ring
  rw [hhalf, hnml]
  have hlog2 : Real.log 2 ≠ 0 := (Real.log_pos one_lt_two).ne'
  field_simp

/-- Monolith `ArchID.identify` on "aabb": the sparse-data entropy branch
fires before the printable check is ever reached. -/
lemma identify_aabb : identify [0x61, 0x61, 0x62, 0x62] = "Low Entropy (Sparse Data)" := by
  unfold identify
  rw [if_neg (by decide), if_neg (by decide), if_neg (by decide), if_neg (by decide),
    if_neg (by decide), if_neg (by decide), if_neg (by decide), if_neg (by decide)]
  rw [entropy_aabb]
  rw [if_neg (by norm_num), if_pos (by norm_num)]

/-- Package `ArchID.identify` on "aabb": the printable-ratio branch fires
first, so the entropy rules are never consulted. -/
lemma identifyPkg_aabb : identifyPkg [0x61, 0x61, 0x62, 0x62] = "ASCII Text / Source Code" := by
  have hp : printableCount [0x61, 0x61, 0x62, 0x62] = 4 := by decide
  unfold identifyPkg
  rw [if_neg (by decide), if_neg (by decide), if_neg (by decide), if_neg (by decide),
    if_neg (by decide), if_neg (by decide)]
  rw [hp]
  rw [if_pos (by norm_num)]

/-- C8 (failing evaluation): on the 4-byte slice "aabb" (entropy exactly 1,
printable ratio 1 > 0.90, no magic prefix) the package ArchID.identify
answers from the printable-ratio rule, while the claim — and the monolith
implementation — require the `1.0 ≤ H < 3.0` entropy rule to fire first and
return "Low Entropy (Sparse Data)". -/
theorem identify_order_divergence :
    identifyPkg [0x61, 0x61, 0x62, 0x62] = "ASCII Text / Source Code" ∧
    identify [0x61, 0x61, 0x62, 0x62] = "Low Entropy (Sparse Data)" ∧
    entropy [0x61, 0x61, 0x62, 0x62] = 1 ∧
    9 / 10 < (printableCount [0x61, 0x61, 0x62, 0x62] : ℝ) /
      ((([0x61, 0x61, 0x62, 0x62] : List Byte).length : ℕ) : ℝ) := by
  refine ⟨identifyPkg_aabb, identify_aabb, entropy_aabb, ?_⟩
  have hp : printableCount [0x61, 0x61, 0x62, 0x62] = 4 := by decide
  rw [hp]
  norm_num

end SNav
